import Mathlib

/-
Verification of the rollback/replay state-history engine of the `onion`
repository (`src/netcode/replay.rs`, `struct Replayable<Input, State>`).

Modelling conventions:
* `LinkedList<Input>` becomes `List Input`; the head of the list is the front
  of the linked list (the oldest retained input), matching `push_front`,
  `pop_front`, `push_back` and the forward iterator used by `current`.
* The `u64` fields are modelled as `Nat`.  The interesting machine-arithmetic
  behaviour is unsigned subtraction: Rust panics on `u64` underflow under the
  overflow checks active in the profile the repository's tests run in (and in
  release mode the wrapped difference immediately drives a loop of about 2^64
  iterations, which is equally far from any claimed behaviour).  Subtraction
  is therefore modelled as `checkedSub`, and an operation that can reach an
  underflow or a failing `Option::unwrap` returns `Option`, with `none`
  standing for the panic.  Additions (`self.frame += 1`) cannot meaningfully
  overflow in any feasible execution and are modelled as plain `Nat` addition.
* Methods taking `&mut self` become functions from the structure to the
  structure (wrapped in `Option` where a panic is reachable); `current`, which
  both mutates the cache and returns a value, returns a pair.
-/

namespace Onion

/-- Rust `u64` subtraction `a - b` as it behaves with overflow checks on:
the difference when `b ≤ a`, a panic (modelled as `none`) on underflow. -/
def checkedSub (a b : Nat) : Option Nat :=
  if b ≤ a then some (a - b) else none

/-- The `Replayable<Input, State>` structure of `src/netcode/replay.rs`:
a transition function, the frame number of the last state, the history of
inputs (front = oldest), the state `first` of the oldest frame, the cached
last state `last`, and the `stale` flag marking the cache out of date. -/
structure Replayable (I S : Type) where
  next_fn : I → S → S
  frame : Nat
  history : List I
  first : S
  last : S
  stale : Bool

namespace Replayable

variable {I S : Type}

/-- `Replayable::new`: one-element history, `frame = 1`, both cached states
equal to the seed, not stale. -/
def new (next : I → S → S) (seed : S) (input : I) : Replayable I S :=
  { next_fn := next
    frame := 1
    history := [input]
    first := seed
    last := seed
    stale := false }

/-- The replay loop inside `Replayable::current`: fold the transition
function over `first` with each element of `history` in order. -/
def replayFold (b : Replayable I S) : S :=
  b.history.foldl (fun s i => b.next_fn i s) b.first

/-- `Replayable::current`: return the cached `last` when not stale, otherwise
recompute it by replaying `history` from `first`, cache it and clear the
flag.  Returns the value together with the mutated receiver. -/
def current (b : Replayable I S) : S × Replayable I S :=
  if b.stale then
    (b.replayFold, { b with last := b.replayFold, stale := false })
  else
    (b.last, b)

/-- `Replayable::advance`: mark stale, push the input at the back, increment
the frame. -/
def advance (b : Replayable I S) (input : I) : Replayable I S :=
  { b with
    stale := true
    history := b.history ++ [input]
    frame := b.frame + 1 }

/-- The extension-by-repetition loop shared by `fast_forward`, `commit` and
`update_input`: `n` times, `advance(self.history.back().unwrap().clone())`.
The iteration count is fixed before the loop starts (a Rust range).  When the
history is empty, `back()` is `None` and the `unwrap` panics (`none`). -/
def ffLoop : Nat → Replayable I S → Option (Replayable I S)
  | 0, b => some b
  | n + 1, b =>
    match b.history.getLast? with
    | none => none
    | some i => ffLoop n (b.advance i)

/-- `Replayable::fast_forward`: repeat the last input until on the desired
frame.  The Rust range `self.frame..frame` is empty when `frame ≤ self.frame`,
which truncated `Nat` subtraction reproduces. -/
def fast_forward (b : Replayable I S) (frame : Nat) : Option (Replayable I S) :=
  ffLoop (frame - b.frame) b

/-- The pop-and-fold loop at the end of `Replayable::commit`: `n` times, pop
the front of the history and fold it into `first`; popping an empty history
gives `None` and the `unwrap` panics (`none`). -/
def commitPops : Nat → Replayable I S → Option (Replayable I S)
  | 0, b => some b
  | n + 1, b =>
    match b.history with
    | [] => none
    | i :: rest => commitPops n { b with history := rest, first := b.next_fn i b.first }

/-- `Replayable::commit`: compute `missing = id - self.frame` (an unchecked
`u64` subtraction, hence a panic whenever `id < frame`), extend by repetition
`missing` times, then pop `id - (frame - history.len())` inputs from the
front, folding each into `first`. -/
def commit (b : Replayable I S) (id : Nat) : Option (Replayable I S) :=
  (checkedSub id b.frame).bind fun missing =>
    (ffLoop missing b).bind fun b1 =>
      (checkedSub b1.frame b1.history.length).bind fun start =>
        (checkedSub id start).bind fun count =>
          commitPops count b1

/-- `Replayable::force`: if the server is ahead (`id > frame`) replace the
whole buffer; if it is behind the retained window (`id < frame - len`) ignore
the call; otherwise `commit(id)`, mark stale, overwrite `first` with the
state, and replace the front input (`pop_front` ignores `None` on an empty
history, then `push_front`). -/
def force (b : Replayable I S) (id : Nat) (input : I) (state : S) :
    Option (Replayable I S) :=
  if b.frame < id then
    some { b with
      frame := id
      history := [input]
      first := state
      last := state
      stale := false }
  else
    (checkedSub b.frame b.history.length).bind fun c =>
      if id < c then
        some b
      else
        (b.commit id).bind fun b2 =>
          some { b2 with
            stale := true
            first := state
            history := input :: b2.history.tail }

/-- The iterator walk inside `Replayable::update_input`: skip `n` entries
from the front of the history, apply the mutator to the next one in place;
if the iterator is exhausted first, return with the list unchanged. -/
def mutAt (f : I → I) : List I → Nat → List I
  | [], _ => []
  | x :: xs, 0 => f x :: xs
  | x :: xs, n + 1 => x :: mutAt f xs n

/-- `Replayable::update_input`: extend by repetition when `id` is beyond the
frame (the `i64` cast makes the loop empty when `id ≤ frame`), set the stale
flag, then walk `frame - id` entries from the front of the history and
mutate the next entry in place (silently returning when out of range). -/
def update_input (b : Replayable I S) (id : Nat) (f : I → I) :
    Option (Replayable I S) :=
  (ffLoop (id - b.frame) b).bind fun b1 =>
    some { b1 with
      stale := true
      history := mutAt f b1.history (b1.frame - id) }

/-- Modelled from the spec: the `update_input` the specification describes,
which locates the entry to mutate at position `(frontier_tick - tick)`
counted from the BACK of the history, i.e. at front index
`len - 1 - (frame - id)`.  Used only to compare against the source's
`update_input`, which counts from the front. -/
def update_input_fromBack (b : Replayable I S) (id : Nat) (f : I → I) :
    Option (Replayable I S) :=
  (ffLoop (id - b.frame) b).bind fun b1 =>
    some { b1 with
      stale := true
      history := mutAt f b1.history (b1.history.length - 1 - (b1.frame - id)) }

/-- Apply a whole input sequence through repeated `advance` calls, never
reading the state in between (the lazy driver). -/
def advances (b : Replayable I S) (l : List I) : Replayable I S :=
  l.foldl advance b

/-- Apply a whole input sequence through repeated `advance` calls, calling
`current` after every single one (the eager driver). -/
def advancesEager (b : Replayable I S) (l : List I) : Replayable I S :=
  l.foldl (fun c i => ((c.advance i).current).2) b

/-- The buffers reachable from construction by the public interface, each
mutating operation contributing only when it returns normally. -/
inductive Reachable : Replayable I S → Prop where
  | mk_new (next : I → S → S) (seed : S) (input : I) :
      Reachable (new next seed input)
  | of_advance {b : Replayable I S} (i : I) :
      Reachable b → Reachable (b.advance i)
  | of_current {b : Replayable I S} :
      Reachable b → Reachable (b.current).2
  | of_fast_forward {b b' : Replayable I S} (t : Nat) :
      Reachable b → b.fast_forward t = some b' → Reachable b'
  | of_commit {b b' : Replayable I S} (t : Nat) :
      Reachable b → b.commit t = some b' → Reachable b'
  | of_force {b b' : Replayable I S} (t : Nat) (i : I) (s : S) :
      Reachable b → b.force t i s = some b' → Reachable b'
  | of_update_input {b b' : Replayable I S} (t : Nat) (f : I → I) :
      Reachable b → b.update_input t f = some b' → Reachable b'

/-- The exact relation between the cache and the history that the code
maintains on every reachable buffer whose stale flag is clear: either the
cache really is the replay of the history (the cache was last written by
`current`), or the cache still holds the unreplayed seed of `new` or of a
forward `force` (one retained input, cache equal to `first`), or such a
seeded buffer was committed before its cache was ever recomputed (empty
history, `first` one transition step ahead of the cache). -/
def CleanSync (b : Replayable I S) : Prop :=
  b.stale = false →
    b.replayFold = b.last ∨
    (b.last = b.first ∧ b.history.length = 1) ∨
    (b.history = [] ∧ ∃ i, b.first = b.next_fn i b.last)

end Replayable

theorem checkedSub_eq_some {a b c : Nat} :
    checkedSub a b = some c ↔ b ≤ a ∧ c = a - b := by
  unfold checkedSub
  split <;> simp_all [eq_comm]

namespace Replayable

variable {I S : Type}

@[simp]
theorem replayFold_mk (n : I → S → S) (fr : Nat) (h : List I) (f l : S) (st : Bool) :
    replayFold ⟨n, fr, h, f, l, st⟩ = h.foldl (fun s i => n i s) f := rfl

theorem replayFold_advance (b : Replayable I S) (i : I) :
    (b.advance i).replayFold = b.next_fn i b.replayFold := by
  cases b
  simp [advance, replayFold, List.foldl_append]

theorem current_fst (b : Replayable I S) :
    (b.current).1 = if b.stale then b.replayFold else b.last := by
  unfold current
  split <;> simp_all

theorem current_snd (b : Replayable I S) :
    (b.current).2 = if b.stale then
      { b with last := b.replayFold, stale := false } else b := by
  unfold current
  split <;> simp_all

@[simp]
theorem advance_next_fn (b : Replayable I S) (i : I) :
    (b.advance i).next_fn = b.next_fn := rfl

@[simp]
theorem advance_first (b : Replayable I S) (i : I) :
    (b.advance i).first = b.first := rfl

@[simp]
theorem advance_last (b : Replayable I S) (i : I) :
    (b.advance i).last = b.last := rfl

@[simp]
theorem advance_frame (b : Replayable I S) (i : I) :
    (b.advance i).frame = b.frame + 1 := rfl

@[simp]
theorem advance_history (b : Replayable I S) (i : I) :
    (b.advance i).history = b.history ++ [i] := rfl

@[simp]
theorem advance_stale (b : Replayable I S) (i : I) :
    (b.advance i).stale = true := rfl

theorem ffLoop_some {n : Nat} {b b' : Replayable I S}
    (h : ffLoop n b = some b') :
    b'.next_fn = b.next_fn ∧ b'.first = b.first ∧ b'.last = b.last ∧
      b'.frame = b.frame + n ∧ b'.history.length = b.history.length + n ∧
      (0 < n → b'.stale = true) ∧ (n = 0 → b' = b) := by
  induction n generalizing b with
  | zero =>
    simp only [ffLoop, Option.some.injEq] at h
    subst h
    simp
  | succ n ih =>
    simp only [ffLoop] at h
    rcases hg : b.history.getLast? with _ | x <;> rw [hg] at h
    · simp at h
    · obtain ⟨h1, h2, h3, h4, h5, h6, h7⟩ := ih h
      refine ⟨by simp [h1], by simp [h2], by simp [h3],
        by simp at h4; omega, by simp at h5; omega, fun _ => ?_, by omega⟩
      rcases Nat.eq_zero_or_pos n with hn | hn
      · rw [h7 hn]; simp
      · exact h6 hn

theorem ffLoop_repeat (n : Nat) (b : Replayable I S) (x : I)
    (h : b.history.getLast? = some x) :
    ffLoop n b = some { b with
      stale := if n = 0 then b.stale else true
      history := b.history ++ List.replicate n x
      frame := b.frame + n } := by
  induction n generalizing b with
  | zero => simp only [ffLoop]; cases b; simp
  | succ n ih =>
    have hx : (b.advance x).history.getLast? = some x := by simp
    simp only [ffLoop, h]
    rw [ih (b.advance x) hx]
    cases b
    rw [Option.some.injEq]
    simp only [advance, mk.injEq, List.replicate_succ]
    refine ⟨trivial, by omega, ?_, trivial, trivial, by simp⟩
    simp [List.append_assoc]

theorem commitPops_eq (k : Nat) (b : Replayable I S) (h : k ≤ b.history.length) :
    commitPops k b = some { b with
      history := b.history.drop k
      first := (b.history.take k).foldl (fun s i => b.next_fn i s) b.first } := by
  induction k generalizing b with
  | zero => cases b; simp [commitPops]
  | succ k ih =>
    rcases hh : b.history with _ | ⟨i, rest⟩
    · rw [hh] at h; simp at h
    · have := ih { b with history := rest, first := b.next_fn i b.first }
        (by simp; rw [hh] at h; simp at h; omega)
      cases b
      simp only at hh
      subst hh
      simp only [commitPops]
      rw [this]
      simp

theorem commit_some {b : Replayable I S} {id : Nat} {b' : Replayable I S}
    (h : b.commit id = some b') :
    b.frame ≤ id ∧ ∃ b1, ffLoop (id - b.frame) b = some b1 ∧ b1.frame = id ∧
      b' = { b1 with history := [], first := b1.replayFold } := by
  unfold commit at h
  simp only [Option.bind_eq_some] at h
  obtain ⟨m, hm, b1, hb1, start, hstart, count, hcount, hpops⟩ := h
  obtain ⟨hfr, hmv⟩ := checkedSub_eq_some.mp hm
  subst hmv
  obtain ⟨hlen, hstartv⟩ := checkedSub_eq_some.mp hstart
  obtain ⟨hsle, hcountv⟩ := checkedSub_eq_some.mp hcount
  have hb1frame : b1.frame = id := by
    have := (ffLoop_some hb1).2.2.2.1
    omega
  have hc : count = b1.history.length := by omega
  subst hc
  rw [commitPops_eq _ _ (le_refl _)] at hpops
  refine ⟨hfr, b1, hb1, hb1frame, ?_⟩
  cases hpops
  cases b1
  simp [replayFold]

theorem update_input_some {b : Replayable I S} {id : Nat} {f : I → I}
    {b' : Replayable I S} (h : b.update_input id f = some b') :
    ∃ b1, ffLoop (id - b.frame) b = some b1 ∧
      b' = { b1 with stale := true, history := mutAt f b1.history (b1.frame - id) } := by
  unfold update_input at h
  simp only [Option.bind_eq_some, Option.some.injEq] at h
  obtain ⟨b1, h1, h2⟩ := h
  exact ⟨b1, h1, h2.symm⟩

theorem force_some {b : Replayable I S} {id : Nat} {i : I} {s : S}
    {b' : Replayable I S} (h : b.force id i s = some b') :
    (b.frame < id ∧
      b' = { b with frame := id, history := [i], first := s, last := s, stale := false }) ∨
    (id ≤ b.frame ∧ b.history.length ≤ b.frame ∧
      id < b.frame - b.history.length ∧ b' = b) ∨
    (id ≤ b.frame ∧ b.history.length ≤ b.frame ∧
      b.frame - b.history.length ≤ id ∧
      ∃ b2, b.commit id = some b2 ∧
        b' = { b2 with stale := true, first := s, history := i :: b2.history.tail }) := by
  unfold force at h
  split at h
  · left
    simp only [Option.some.injEq] at h
    exact ⟨by assumption, h.symm⟩
  · simp only [Option.bind_eq_some] at h
    obtain ⟨c, hc, h⟩ := h
    obtain ⟨hlen, hcv⟩ := checkedSub_eq_some.mp hc
    subst hcv
    split at h
    · right; left
      simp only [Option.some.injEq] at h
      exact ⟨by omega, hlen, by assumption, h.symm⟩
    · right; right
      simp only [Option.bind_eq_some, Option.some.injEq] at h
      obtain ⟨b2, h2, h3⟩ := h
      exact ⟨by omega, hlen, by omega, b2, h2, h3.symm⟩

theorem mutAt_length (f : I → I) (l : List I) (n : Nat) :
    (mutAt f l n).length = l.length := by
  induction l generalizing n with
  | nil => rfl
  | cons x xs ih => cases n <;> simp [mutAt, ih]

theorem mutAt_eq_set (f : I → I) (l : List I) (n : Nat) :
    mutAt f l n = match l.get? n with
      | some a => l.set n (f a)
      | none => l := by
  induction l generalizing n with
  | nil => simp [mutAt]
  | cons x xs ih =>
    cases n with
    | zero => simp [mutAt]
    | succ n =>
      simp only [mutAt, List.get?, ih]
      rcases xs.get? n with _ | a <;> simp

theorem mutAt_of_ge (f : I → I) (l : List I) (n : Nat) (h : l.length ≤ n) :
    mutAt f l n = l := by
  rw [mutAt_eq_set]
  rw [List.get?_eq_none.mpr h]

theorem reachable_inv {b : Replayable I S} (h : Reachable b) :
    1 ≤ b.frame ∧ b.history.length ≤ b.frame := by
  induction h with
  | mk_new next seed input => simp [new]
  | of_advance i _ ih => simp; omega
  | of_current _ ih =>
    rw [current_snd]
    split
    · simpa using ih
    · exact ih
  | of_fast_forward t _ hf ih =>
    obtain ⟨_, _, _, h4, h5, _, _⟩ := ffLoop_some hf
    omega
  | of_commit t _ hc ih =>
    obtain ⟨hfr, b1, hb1, hfr1, hb'⟩ := commit_some hc
    subst hb'
    simpa using by omega
  | of_force t i s _ hf ih =>
    rcases force_some hf with ⟨hlt, hb'⟩ | ⟨_, _, _, hb'⟩ | ⟨hle, _, _, b2, h2, hb'⟩
    · subst hb'; simpa using by omega
    · subst hb'; exact ih
    · obtain ⟨hfr, b1, hb1, hfr1, hb2⟩ := commit_some h2
      subst hb'
      subst hb2
      simpa using by omega
  | of_update_input t f _ hu ih =>
    obtain ⟨b1, h1, hb'⟩ := update_input_some hu
    obtain ⟨_, _, _, h4, h5, _, _⟩ := ffLoop_some h1
    subst hb'
    simp [mutAt_length]
    omega

theorem replayFold_update_cache (b : Replayable I S) (x : S) (st : Bool) :
    replayFold { b with last := x, stale := st } = replayFold b := by
  cases b; rfl

theorem replayFold_congr {b c : Replayable I S} (hn : b.next_fn = c.next_fn)
    (hh : b.history = c.history) (hf : b.first = c.first) :
    b.replayFold = c.replayFold := by
  unfold replayFold
  rw [hn, hh, hf]

theorem current_snd_of_stale {b : Replayable I S} (h : b.stale = true) :
    (b.current).2 = { b with last := b.replayFold, stale := false } := by
  rw [current_snd, if_pos h]

theorem lazy_eager_aux (l : List I) (b c : Replayable I S)
    (hn : b.next_fn = c.next_fn) (hh : b.history = c.history)
    (hf : b.first = c.first) (hcur : (b.current).1 = (c.current).1) :
    ((advancesEager b l).current).1 = ((advances c l).current).1 := by
  induction l generalizing b c with
  | nil => exact hcur
  | cons i rest ih =>
    show ((advancesEager (((b.advance i).current).2) rest).current).1
        = ((advances (c.advance i) rest).current).1
    have hst : (b.advance i).stale = true := by simp
    apply ih
    · rw [current_snd_of_stale hst]
      simp [hn]
    · rw [current_snd_of_stale hst]
      simp [hh]
    · rw [current_snd_of_stale hst]
      simp [hf]
    · rw [current_snd_of_stale hst]
      rw [current_fst, current_fst]
      have hrep : (b.advance i).replayFold = (c.advance i).replayFold :=
        replayFold_congr (by simp [hn]) (by simp [hh]) (by simp [hf])
      simp [replayFold_update_cache, hrep]

theorem clean_sync_reachable {b : Replayable I S} (h : Reachable b) : CleanSync b := by
  induction h with
  | mk_new next seed input =>
    intro _
    right; left
    exact ⟨rfl, rfl⟩
  | of_advance i _ ih =>
    intro hst
    simp at hst
  | of_current _ ih =>
    rw [current_snd]
    split
    · intro _
      left
      rw [replayFold_update_cache]
    · exact ih
  | @of_fast_forward b0 b' t _ hf ih =>
    obtain ⟨_, _, _, _, _, h6, h7⟩ := ffLoop_some hf
    rcases Nat.eq_zero_or_pos (t - b0.frame) with hn | hn
    · rw [h7 hn]; exact ih
    · intro hst
      rw [h6 hn] at hst
      simp at hst
  | @of_commit b0 b' t _ hc ih =>
    obtain ⟨hfr, b1, hb1, hfr1, hb'⟩ := commit_some hc
    obtain ⟨g1, g2, g3, g4, g5, g6, g7⟩ := ffLoop_some hb1
    subst hb'
    rcases Nat.eq_zero_or_pos (t - b0.frame) with hn | hn
    · rw [g7 hn]
      intro hst
      simp only at hst
      rcases ih hst with hsync | ⟨hlast, hlen1⟩ | ⟨hnil, i, hstep⟩
      · left
        simpa [replayFold] using hsync
      · right; right
        obtain ⟨i, hi⟩ := List.length_eq_one.mp hlen1
        refine ⟨rfl, i, ?_⟩
        simp [replayFold, hi, hlast]
      · right; right
        refine ⟨rfl, i, ?_⟩
        simp [replayFold, hnil, hstep]
    · intro hst
      simp only at hst
      rw [g6 hn] at hst
      simp at hst
  | of_force t i s _ hf ih =>
    rcases force_some hf with ⟨hlt, hb'⟩ | ⟨_, _, _, hb'⟩ | ⟨hle, _, _, b2, h2, hb'⟩
    · subst hb'
      intro _
      right; left
      exact ⟨rfl, rfl⟩
    · subst hb'; exact ih
    · subst hb'
      intro hst
      simp at hst
  | of_update_input t f _ hu ih =>
    obtain ⟨b1, h1, hb'⟩ := update_input_some hu
    subst hb'
    intro hst
    simp at hst

end Replayable

/-- The transition function of the repository's addition-based tests and of
`src/bin/server.rs`: `|i, s| i + s` on the integers, here on `Nat`. -/
def natAdd : Nat → Nat → Nat := fun i s => i + s

/-- The transition function of the repository's `test_update_history`:
`|i, s| i * s`. -/
def natMul : Nat → Nat → Nat := fun i s => i * s

/-- C1, counterexample: the clean-cache replay invariant fails as stated
already on a freshly constructed buffer.  `new(add, seed 0, input 1)` is
reachable and leaves `stale = false`, yet replaying the history over the
committed state gives `0 + 1 = 1` while the cached frontier state is the
seed `0`. -/
theorem clean_cache_invariant_fails_at_new :
    Replayable.Reachable (Replayable.new natAdd 0 1) ∧
    (Replayable.new natAdd 0 1).stale = false ∧
    (Replayable.new natAdd 0 1).replayFold = 1 ∧
    (Replayable.new natAdd 0 1).last = 0 ∧
    ¬ (Replayable.new natAdd 0 1).replayFold = (Replayable.new natAdd 0 1).last :=
  ⟨Replayable.Reachable.mk_new natAdd 0 1, rfl, rfl, rfl, by decide⟩

/-- C1, amended: on every buffer reachable through the public interface,
whenever the stale flag is clear the cache is in one of exactly three
states: it is the replay of the history over the committed state (the cache
was last filled by `current`), or it is the unreplayed seed of `new` or of a
forward `force` (cache equal to the committed state with a single retained
input), or such a seeded buffer was committed before its cache was ever
recomputed (empty history, committed state one transition step ahead of the
cache).  The first disjunct alone — the claim as stated — does not hold. -/
theorem clean_cache_invariant_amended {I S : Type} {b : Replayable I S}
    (h : Replayable.Reachable b) : Replayable.CleanSync b :=
  Replayable.clean_sync_reachable h

/-- C1, witness: the amended invariant evaluated on a concrete reachable
buffer. -/
theorem clean_cache_invariant_amended_witness :
    Replayable.CleanSync (Replayable.new natAdd 0 0) :=
  clean_cache_invariant_amended (Replayable.Reachable.mk_new natAdd 0 0)

/-- C2, code bug: an in-window `force` strictly below the frontier panics
instead of committing and splicing.  After `new(add, 0, 0)` and one
`advance(0)` the window is `0 ≤ t ≤ 2`, but `force(1, 5, 7)` reaches
`commit(1)`, whose unchecked `u64` subtraction `id - frame = 1 - 2`
underflows. -/
theorem force_in_window_panics :
    (((Replayable.new natAdd 0 0).advance 0).force 1 5 7) = none := rfl

/-- C4, code bug: `commit` with a target at or before the committed tick is
not a no-op; its unchecked `u64` subtraction `id - frame` underflows.  On a
fresh buffer (`frame = 1`), `commit(0)` panics instead of leaving the buffer
unchanged. -/
theorem commit_stale_target_panics :
    ((Replayable.new natAdd 0 0).commit 0) = none := rfl

/-- C9: the `history.back().unwrap()` panic is reachable through the public
interface alone.  `commit(1)` on a fresh buffer empties the history, and
from that state `fast_forward`, `update_input` and `commit` targeting any
tick beyond the frontier all unwrap `back()` of an empty history. -/
theorem empty_history_panic_reachable :
    ((Replayable.new natAdd 0 0).commit 1).map Replayable.history = some [] ∧
    (((Replayable.new natAdd 0 0).commit 1).bind fun c => c.fast_forward 2) = none ∧
    (((Replayable.new natAdd 0 0).commit 1).bind fun c =>
      c.update_input 2 (fun i => i + 1)) = none ∧
    (((Replayable.new natAdd 0 0).commit 1).bind fun c => c.commit 2) = none :=
  ⟨rfl, rfl, rfl, rfl⟩

/-- C3, counterexample: commit transparency fails for a target beyond the
frontier.  On `new(add, seed 0, input 1)` the current state is `0`, but
`commit(2)` first extends the buffer by repeating the last input (the
deliberate `missing` catch-up), after which `current()` is `2`. -/
theorem commit_transparency_fails_beyond_frontier :
    ((Replayable.new natAdd 0 1).current).1 = 0 ∧
    ((Replayable.new natAdd 0 1).commit 2).map (fun c => (c.current).1) = some 2 :=
  ⟨rfl, rfl⟩

/-- C3, amended: commit transparency holds exactly at the frontier: whenever
the history length does not exceed the frame, `commit(frontier_tick)`
returns normally and a following `current()` yields the same value as
`current()` before the commit.  For targets beyond the frontier the implicit
extension advances the observable state, and for targets before the frontier
the unchecked `u64` subtraction in `commit` underflows. -/
theorem commit_transparent_at_frontier {I S : Type} (b : Replayable I S)
    (h : b.history.length ≤ b.frame) :
    ∃ b', b.commit b.frame = some b' ∧ (b'.current).1 = (b.current).1 := by
  have h0 : checkedSub b.frame b.frame = some 0 := by simp [checkedSub]
  have h1 : checkedSub b.frame b.history.length =
      some (b.frame - b.history.length) := checkedSub_eq_some.mpr ⟨h, rfl⟩
  have h2 : checkedSub b.frame (b.frame - b.history.length) =
      some b.history.length := checkedSub_eq_some.mpr ⟨by omega, by omega⟩
  have h3 := Replayable.commitPops_eq b.history.length b (le_refl _)
  refine ⟨{ b with history := [], first := b.replayFold }, ?_, ?_⟩
  · unfold Replayable.commit
    rw [h0]
    simp only [Option.some_bind]
    rw [show Replayable.ffLoop 0 b = some b from rfl, Option.some_bind, h1,
      Option.some_bind, h2, Option.some_bind, h3]
    simp [Replayable.replayFold]
  · rw [Replayable.current_fst, Replayable.current_fst]
    cases hst : b.stale <;>
      simp [hst, Replayable.replayFold]

/-- C3, witness: the amended transparency evaluated on a concrete buffer. -/
theorem commit_transparent_at_frontier_witness :
    ∃ b', (Replayable.new natAdd 0 1).commit (Replayable.new natAdd 0 1).frame
        = some b' ∧
      (b'.current).1 = (((Replayable.new natAdd 0 1)).current).1 :=
  commit_transparent_at_frontier (Replayable.new natAdd 0 1) (by decide)

/-- C6: determinism of lazy versus eager recomputation.  For any buffer and
any finite input sequence, driving the sequence through repeated `advance`
calls yields the same final `current()` value whether `current()` was also
called after every single `advance` or only once at the end. -/
theorem lazy_eager_current_agree {I S : Type} (b : Replayable I S) (l : List I) :
    ((Replayable.advancesEager b l).current).1 =
      ((Replayable.advances b l).current).1 :=
  Replayable.lazy_eager_aux l b b rfl rfl rfl rfl

/-- C7: force-forward jump.  Whenever the target tick is strictly beyond the
frontier, `force(t, i, s)` discards the whole retained history and installs
`frame = t`, `history = [i]`, `first = last = s`, `stale = false`; the
resulting buffer's `current()` returns exactly `s` for EVERY transition
function, i.e. no replay of the skipped ticks can be involved. -/
theorem force_forward_jump {I S : Type} (b : Replayable I S) (t : Nat)
    (i : I) (s : S) (h : b.frame < t) :
    b.force t i s = some (Replayable.mk b.next_fn t [i] s s false) ∧
    ∀ g : I → S → S, ((Replayable.mk g t [i] s s false).current).1 = s := by
  constructor
  · unfold Replayable.force
    rw [if_pos h]
  · intro g
    rfl

/-- C7, witness: the jump evaluated at a concrete buffer and target. -/
theorem force_forward_jump_witness :
    (Replayable.new natAdd 0 0).force 5 1 9 =
      some (Replayable.mk (Replayable.new natAdd 0 0).next_fn 5 [1] 9 9 false) ∧
    ∀ g : Nat → Nat → Nat, ((Replayable.mk g 5 [1] 9 9 false).current).1 = 9 :=
  force_forward_jump (Replayable.new natAdd 0 0) 5 1 9 (by decide)

/-- C5, counterexample: `update_input` does not locate the entry at position
`(frontier_tick - t)` counted from the back of the history; it counts from
the front.  Replaying the repository's own `test_update_history` tail:
after `new(mul, 1, 1)` and three `advance(2)`, `update_input(8, set to 2)`
extends the history to eight entries and mutates the OLDEST entry (front
position `0`), giving `current() = 256` — the value the repository's test
suite asserts (384 in the test's variant) — whereas mutating at position
`0` from the back would leave `current() = 128`. -/
theorem update_input_back_position_refuted :
    (((((Replayable.new natMul 1 1).advance 2).advance 2).advance 2).update_input 8
        (fun _ => 2)).map (fun c => (c.current).1) = some 256 ∧
    (Replayable.update_input_fromBack
        ((((Replayable.new natMul 1 1).advance 2).advance 2).advance 2) 8
        (fun _ => 2)).map (fun c => (c.current).1) = some 128 :=
  ⟨rfl, rfl⟩

/-- C5, amended: `update_input(t, mutator)` first extends the buffer by
repeating the last input when `t` is beyond the frontier, then mutates the
history entry at position `(frontier_tick - t)` counted from the FRONT of
the (extended) history, leaving every other entry, the committed state and
the cached last state untouched, and sets the stale flag; out-of-range
positions leave the history unchanged (the no-op case). -/
theorem update_input_contract_front_indexed {I S : Type} (b : Replayable I S)
    (id : Nat) (f : I → I) (x : I) (h : b.history.getLast? = some x) :
    ∃ b', b.update_input id f = some b' ∧
      b'.next_fn = b.next_fn ∧ b'.first = b.first ∧ b'.last = b.last ∧
      b'.frame = max b.frame id ∧ b'.stale = true ∧
      b'.history =
        (match (b.history ++ List.replicate (id - b.frame) x).get?
            (max b.frame id - id) with
         | some a => (b.history ++ List.replicate (id - b.frame) x).set
             (max b.frame id - id) (f a)
         | none => b.history ++ List.replicate (id - b.frame) x) := by
  have hmax : b.frame + (id - b.frame) = max b.frame id := by omega
  have hrep := Replayable.ffLoop_repeat (id - b.frame) b x h
  unfold Replayable.update_input
  rw [hrep, Option.some_bind]
  refine ⟨_, rfl, rfl, rfl, rfl, hmax, rfl, ?_⟩
  rw [Replayable.mutAt_eq_set]
  simp only [hmax]

/-- C5, witness: the front-indexed contract evaluated at a concrete buffer
(one retained input, target three ticks beyond the frontier). -/
theorem update_input_contract_front_indexed_witness :
    ∃ b', (Replayable.new natMul 1 1).update_input 3 (fun _ => 7) = some b' ∧
      b'.next_fn = (Replayable.new natMul 1 1).next_fn ∧
      b'.first = (Replayable.new natMul 1 1).first ∧
      b'.last = (Replayable.new natMul 1 1).last ∧
      b'.frame = max (Replayable.new natMul 1 1).frame 3 ∧
      b'.stale = true ∧
      b'.history =
        (match ((Replayable.new natMul 1 1).history ++
            List.replicate (3 - (Replayable.new natMul 1 1).frame) 1).get?
            (max (Replayable.new natMul 1 1).frame 3 - 3) with
         | some a => ((Replayable.new natMul 1 1).history ++
             List.replicate (3 - (Replayable.new natMul 1 1).frame) 1).set
             (max (Replayable.new natMul 1 1).frame 3 - 3) ((fun _ => 7) a)
         | none => (Replayable.new natMul 1 1).history ++
             List.replicate (3 - (Replayable.new natMul 1 1).frame) 1) :=
  update_input_contract_front_indexed (Replayable.new natMul 1 1) 3 (fun _ => 7) 1 rfl

/-- C8, counterexample: a stale `update_input` is not externally
unobservable.  After `force(10, input 1, state 0)` on `new(add, 0, 0)` the
buffer is clean with `current() = 0`; `update_input(5, id)` targets a tick
older than anything retained (committed tick is 9) and mutates nothing, yet
it sets the stale flag, and the next `current()` replays the never-applied
forced input: the value changes from `0` to `1`. -/
theorem stale_update_not_transparent :
    ((Replayable.new natAdd 0 0).force 10 1 0).map (fun c => (c.current).1)
      = some 0 ∧
    (((Replayable.new natAdd 0 0).force 10 1 0).bind fun c =>
        c.update_input 5 (fun i => i)).map (fun c => (c.current).1)
      = some 1 :=
  ⟨rfl, rfl⟩

/-- C8, amended: a stale `update_input` (target at or before the committed
tick) returns normally, never changes the history or the committed state,
and leaves the value of `current()` unchanged PROVIDED the clean cache is in
sync (replaying the history over the committed state gives the cached state
whenever the stale flag is clear).  Without that proviso the call can still
change `current()`, because it unconditionally marks the cache dirty. -/
theorem stale_update_preserves_current_when_synced {I S : Type}
    (b : Replayable I S) (id : Nat) (f : I → I)
    (hold : id + b.history.length ≤ b.frame)
    (hsync : b.stale = false → b.replayFold = b.last) :
    ∃ b', b.update_input id f = some b' ∧
      b'.history = b.history ∧ b'.first = b.first ∧
      (b'.current).1 = (b.current).1 := by
  have h0 : id - b.frame = 0 := by omega
  have hm : Replayable.mutAt f b.history (b.frame - id) = b.history :=
    Replayable.mutAt_of_ge _ _ _ (by omega)
  unfold Replayable.update_input
  rw [h0, show Replayable.ffLoop 0 b = some b from rfl, Option.some_bind]
  refine ⟨_, rfl, by simpa using hm, rfl, ?_⟩
  rw [Replayable.current_fst, Replayable.current_fst]
  have hb' : Replayable.replayFold
      { b with stale := true
               history := Replayable.mutAt f b.history (b.frame - id) }
      = b.replayFold :=
    Replayable.replayFold_congr rfl (by simpa using hm) rfl
  cases hst : b.stale
  · simp only [hst]
    simp [hb']
    exact hsync hst
  · simp only [hst]
    simp [hb']

/-- C8, witness: the amended no-op evaluated on a concrete in-sync buffer
(frame 10, one retained input, stale target 5). -/
theorem stale_update_preserves_current_when_synced_witness :
    ∃ b', (Replayable.mk natAdd 10 [0] (0 : Nat) 0 false).update_input 5
        (fun i => i + 1) = some b' ∧
      b'.history = (Replayable.mk natAdd 10 [0] (0 : Nat) 0 false).history ∧
      b'.first = (Replayable.mk natAdd 10 [0] (0 : Nat) 0 false).first ∧
      (b'.current).1 = (((Replayable.mk natAdd 10 [0] (0 : Nat) 0 false)).current).1 :=
  stale_update_preserves_current_when_synced
    (Replayable.mk natAdd 10 [0] (0 : Nat) 0 false) 5 (fun i => i + 1)
    (by decide) (by decide)

/-- C10: on every reachable buffer the frame number dominates the history
length, so the unsigned subtraction `frame - history.len()` in `force`'s
stale test and in `commit`'s `start` computation never underflows. -/
theorem frame_dominates_history {I S : Type} {b : Replayable I S}
    (h : Replayable.Reachable b) :
    b.history.length ≤ b.frame ∧
    checkedSub b.frame b.history.length =
      some (b.frame - b.history.length) := by
  have hinv := Replayable.reachable_inv h
  exact ⟨hinv.2, checkedSub_eq_some.mpr ⟨hinv.2, rfl⟩⟩

/-- C10, witness: the invariant evaluated on a concrete reachable buffer. -/
theorem frame_dominates_history_witness :
    (Replayable.new natAdd 0 0).history.length ≤ (Replayable.new natAdd 0 0).frame ∧
    checkedSub (Replayable.new natAdd 0 0).frame
        (Replayable.new natAdd 0 0).history.length =
      some ((Replayable.new natAdd 0 0).frame -
        (Replayable.new natAdd 0 0).history.length) :=
  frame_dominates_history (Replayable.Reachable.mk_new natAdd 0 0)

end Onion
